import Mathlib

/-!
Verification of the trace-propagation core of `exaring/sentry-go`:
the Dynamic Sampling Context (DSC) constructors and serializer
(`dynamic_sampling_context.go`) and the otel continuation middleware
(`otel/mittleware.go`), over a shallow embedding in Lean 4.

The baggage wire codec lives in `internal/otel/baggage`, which is part of
the repository but whose source is not in scope here; it is modelled from
the specification (section 4.1 of the design document), as are the small
collaborator types (Client, Scope, Span fields) that the DSC code reads.
-/

namespace SentryGo

/-! ## Character-level primitives of the baggage wire grammar -/

/-- Uppercase hexadecimal digit for a value below 16. -/
def hexDigit (n : Nat) : Char :=
  if n < 10 then Char.ofNat (48 + n) else Char.ofNat (55 + n)

/-- Two-digit uppercase hexadecimal rendering of a byte value. -/
def hexByte (n : Nat) : List Char :=
  [hexDigit (n / 16 % 16), hexDigit (n % 16)]

/-- Numeric value of one hexadecimal digit character, `none` if not a hex digit. -/
def hexVal (c : Char) : Option Nat :=
  if 48 ≤ c.toNat ∧ c.toNat ≤ 57 then some (c.toNat - 48)
  else if 65 ≤ c.toNat ∧ c.toNat ≤ 70 then some (c.toNat - 55)
  else if 97 ≤ c.toNat ∧ c.toNat ≤ 102 then some (c.toNat - 87)
  else none

/-- Modelled from the spec: a character of a baggage value that may appear
unencoded on the wire — printable ASCII except the delimiters and the percent
sign itself (space, `%`, `,`, `;`, `=`, `"` and `\` must be percent-encoded). -/
def isSafeValueChar (c : Char) : Bool :=
  33 ≤ c.toNat && c.toNat ≤ 126 &&
    !(c = '%' || c = ',' || c = ';' || c = '=' || c = '"' || c = '\\')

/-- Modelled from the spec: percent-encoding of one character.  Safe characters
pass through, other single-byte code points become `%XX`; code points above one
byte are outside the wire grammar's ASCII range and are left untouched by this
model (the spec pins the header to ASCII-range text). -/
def percentEncodeChar (c : Char) : List Char :=
  if isSafeValueChar c then [c]
  else if c.toNat < 256 then '%' :: hexByte c.toNat
  else [c]

/-- Modelled from the spec: percent-encoding of a whole value. -/
def percentEncodeList (s : List Char) : List Char :=
  (s.map percentEncodeChar).flatten

/-- Modelled from the spec: percent-decoding.  `%` must be followed by two hex
digits and decodes to the byte they denote; any other character passes through;
a malformed escape fails the whole decode. -/
def percentDecodeList : List Char → Option (List Char)
  | [] => some []
  | c :: rest =>
    if c = '%' then
      match rest with
      | a :: b :: rest2 =>
        match hexVal a, hexVal b with
        | some ha, some hb =>
          (percentDecodeList rest2).map (fun l => Char.ofNat (16 * ha + hb) :: l)
        | _, _ => none
      | _ => none
    else
      (percentDecodeList rest).map (fun l => c :: l)

/-- Whitespace as trimmed by the parser around commas and semicolons. -/
def isWsChar (c : Char) : Bool := c = ' ' || c = '\t'

/-- Drop leading and trailing whitespace from a character list. -/
def trimList (s : List Char) : List Char :=
  ((s.dropWhile isWsChar).reverse.dropWhile isWsChar).reverse

/-- Split a character list on every occurrence of a separator character. -/
def splitListOn (sep : Char) : List Char → List (List Char)
  | [] => [[]]
  | c :: rest =>
    if c = sep then [] :: splitListOn sep rest
    else
      match splitListOn sep rest with
      | [] => [[c]]
      | s :: ss => (c :: s) :: ss

/-- Split a character list at the first occurrence of a separator: the part
before it and, when the separator occurs, the part after it. -/
def splitFirst (sep : Char) : List Char → List Char × Option (List Char)
  | [] => ([], none)
  | c :: rest =>
    if c = sep then ([], some rest)
    else
      match splitFirst sep rest with
      | (pre, post) => (c :: pre, post)

/-- Decimal digit characters of a positive number, most significant first
(fuel-driven; fuel at least the number itself suffices). -/
def natDigitsAux : Nat → Nat → List Char
  | _, 0 => []
  | n, fuel + 1 =>
    if n = 0 then [] else natDigitsAux (n / 10) fuel ++ [Char.ofNat (48 + n % 10)]

/-- Decimal rendering of a natural number. -/
def natToStr (n : Nat) : String :=
  if n = 0 then "0" else String.mk (natDigitsAux n (n + 1))

/-! ## Baggage codec, modelled from the spec

The codec lives in `internal/otel/baggage`, repository code outside the
excerpted sources; every definition in this namespace is modelled from
section 4.1 of the spec. -/

namespace baggage

/-- Modelled from the spec: one baggage member — percent-decoded key and value
plus optional properties preserved verbatim. -/
structure Member where
  key : List Char
  value : List Char
  properties : List Char
deriving DecidableEq, Repr

/-- Modelled from the spec: a character allowed in a baggage key (token
grammar); the percent sign is excluded so keys never need decoding. -/
def isTokenChar (c : Char) : Bool :=
  c.isAlphanum ||
    ['!', '#', '$', '&', '*', '+', '-', '.', '^', '_', '|', '~'].contains c

/-- Modelled from the spec: a key is valid when non-empty and made of token
characters only. -/
def validKey (k : List Char) : Bool := !k.isEmpty && k.all isTokenChar

/-- Modelled from the spec: `NewMember` fails with `EncodeError` when the key is
empty or has characters that cannot be represented on the wire; the value is
always percent-encodable, so the value alone never fails. -/
def NewMember (k v : List Char) : Option Member :=
  if validKey k then some ⟨k, v, []⟩ else none

/-- Modelled from the spec: wire form of one member — raw key, `=`,
percent-encoded value, then `;properties` when properties are present. -/
def Member.serialize (m : Member) : List Char :=
  m.key ++ ('=' :: percentEncodeList m.value) ++
    (if m.properties.isEmpty then [] else ';' :: m.properties)

/-- Modelled from the spec: a baggage document is the ordered member sequence
as parsed. -/
structure Baggage where
  members : List Member
deriving DecidableEq, Repr

/-- Modelled from the spec: `Members()` exposes the parsed member sequence. -/
def Baggage.Members (b : Baggage) : List Member := b.members

/-- Modelled from the spec: producer-defined ceiling on the member count. -/
def maxMembers : Nat := 180

/-- Modelled from the spec: producer-defined ceiling on the total length of the
serialized document. -/
def maxBaggageLength : Nat := 8192

/-- Modelled from the spec: `serialize` joins members with a comma and a space,
in the order given. -/
def serializeMembers : List Member → List Char
  | [] => []
  | [m] => m.serialize
  | m :: rest => m.serialize ++ (',' :: ' ' :: serializeMembers rest)

/-- Modelled from the spec: `New` (document construction) fails with
`EncodeError` when the member count or the serialized length exceeds its
ceilings. -/
def New (ms : List Member) : Option Baggage :=
  if ms.length ≤ maxMembers ∧ (serializeMembers ms).length ≤ maxBaggageLength
  then some ⟨ms⟩ else none

/-- Modelled from the spec: parse one comma-separated segment — trim, split off
properties at the first `;`, require a `=`, percent-decode key and value,
reject an empty key. -/
def parseMember (seg : List Char) : Option Member :=
  let seg2 := trimList seg
  let kvProps := splitFirst ';' seg2
  let kv := trimList kvProps.1
  let props := match kvProps.2 with
    | none => []
    | some p => trimList p
  match splitFirst '=' kv with
  | (_, none) => none
  | (keyRaw, some valRaw) =>
    match percentDecodeList keyRaw, percentDecodeList valRaw with
    | some k, some v => if k.isEmpty then none else some ⟨k, v, props⟩
    | _, _ => none

/-- Parse every comma-separated segment; any failing segment fails the whole
document. -/
def parseSegs : List (List Char) → Option (List Member)
  | [] => some []
  | s :: rest =>
    match parseMember s, parseSegs rest with
    | some m, some ms => some (m :: ms)
    | _, _ => none

/-- Modelled from the spec: `Parse` splits the raw header on commas and parses
each segment, failing with `ParseError` when any segment is malformed. -/
def Parse (raw : List Char) : Option Baggage :=
  (parseSegs (splitListOn ',' raw)).map Baggage.mk

end baggage

/-! ## Dynamic Sampling Context (`dynamic_sampling_context.go`) -/

/-- The reserved key namespace; models the constant `sentryPrefix = "sentry-"`. -/
def sentryNamespace : String := "sentry-"

/-- `DynamicSamplingContext` from the source.  The Go `map[string]string` is
modelled as an association list with unique keys; `mapInsert` overwrites in
place (a deterministic stand-in for Go map assignment). -/
structure DynamicSamplingContext where
  Entries : List (String × String)
  Frozen : Bool
deriving DecidableEq, Repr

/-- Go map assignment `m[k] = v`: replace the value when the key is present,
append the pair otherwise. -/
def mapInsert {β : Type} (m : List (String × β)) (k : String) (v : β) :
    List (String × β) :=
  match m with
  | [] => [(k, v)]
  | p :: rest => if p.1 = k then (k, v) :: rest else p :: mapInsert rest k v

/-- Go map read `m[k]`. -/
def mapLookup {β : Type} (m : List (String × β)) (k : String) : Option β :=
  match m with
  | [] => none
  | p :: rest => if p.1 = k then some p.2 else mapLookup rest k

/-- The member loop of `DynamicSamplingContextFromHeader`: keep only members
whose key starts with `sentry-`, strip the namespace, store into the map. -/
def buildEntries (acc : List (String × String)) :
    List baggage.Member → List (String × String)
  | [] => acc
  | m :: rest =>
    if sentryNamespace.data.isPrefixOf m.key then
      buildEntries
        (mapInsert acc (String.mk (m.key.drop sentryNamespace.length))
          (String.mk m.value)) rest
    else buildEntries acc rest

/-- `DynamicSamplingContextFromHeader` from the source: parse the header via
the baggage codec (propagating its error as `none`), keep the `sentry-`
namespace with the namespace stripped, freeze exactly when at least one entry
was found. -/
def DynamicSamplingContextFromHeader (header : String) :
    Option DynamicSamplingContext :=
  match baggage.Parse header.data with
  | none => none
  | some bag =>
    let entries := buildEntries [] bag.Members
    some ⟨entries, !entries.isEmpty⟩

/-- `strconv.FormatBool`: the literal string of a boolean. -/
def strconvFormatBool (b : Bool) : String := if b then "true" else "false"

/-- A Go `float64` value, represented exactly: every finite IEEE-754 double is
the dyadic rational `num / 2 ^ exp`.  (Non-finite values never reach the code
under study.)  The representation need not be reduced; the formatter below is
insensitive to that. -/
structure GoFloat where
  num : Int
  exp : Nat
deriving DecidableEq, Repr

/-- The Go comparison `f != 0` / `f == 0`: a double is zero exactly when its
mantissa is. -/
def GoFloat.isZero (f : GoFloat) : Bool := f.num = 0

/-- Count the trailing decimal zeros of a positive number (fuel-driven). -/
def trailingZeros : Nat → Nat → Nat
  | _, 0 => 0
  | n, fuel + 1 =>
    if n % 10 = 0 ∧ n ≠ 0 then trailingZeros (n / 10) fuel + 1 else 0

/-- Left-pad a string with zero digits to the given length. -/
def padZeros (s : String) (e : Nat) : String :=
  String.mk (List.replicate (e - s.length) '0') ++ s

/-- Modelled from the spec: `strconv.FormatFloat(x, 'f', -1, 64)` — the
shortest round-trippable decimal rendering, never in exponent form.  The model
prints the exact terminating decimal expansion of the dyadic value with no
trailing zeros; that coincides with Go's shortest round-trippable form
whenever the exact expansion is itself the shortest (true of the short rates
these theorems evaluate, e.g. 0.25 and 1). -/
def strconvFormatFloat (f : GoFloat) : String :=
  let sign := if f.num < 0 then "-" else ""
  let n0 := f.num.natAbs * 5 ^ f.exp
  let k := min (trailingZeros n0 (n0 + 1)) f.exp
  let n := n0 / 10 ^ k
  let e := f.exp - k
  if n = 0 then "0"
  else if e = 0 then sign ++ natToStr n
  else sign ++ natToStr (n / 10 ^ e) ++ "." ++ padZeros (natToStr (n % 10 ^ e)) e

/-- Modelled from the spec: the low-quality transaction-source classification
for names derived from a raw request URL (`SourceURL`). -/
def SourceURL : String := "url"

/-- The span fields read by `DynamicSamplingContextFromTransaction`, modelled
from the spec's collaborator interface: `TraceID` holds the canonical hex
rendering `span.TraceID.String()`, `sampleRate` the resolved rate,
`Sampled` the boolean `span.Sampled.Bool()` of the sampling decision,
`IsTransaction` the root-span predicate. -/
structure Span where
  TraceID : String
  sampleRate : GoFloat
  Source : String
  Name : String
  IsTransaction : Bool
  Sampled : Bool
deriving DecidableEq, Repr

/-- Modelled from the spec: the client's DSN with its ingestion public key. -/
structure Dsn where
  publicKey : String
deriving DecidableEq, Repr

/-- Modelled from the spec: static client configuration. -/
structure ClientOptions where
  Release : String
  Environment : String
  TracesSampleRate : GoFloat
deriving DecidableEq, Repr

/-- Modelled from the spec: a client holding a possibly-absent DSN and its
options. -/
structure Client where
  dsn : Option Dsn
  options : ClientOptions
deriving DecidableEq, Repr

/-- Modelled from the spec: the scope's ambient propagation context, with the
hex rendering of its trace identifier. -/
structure PropagationContext where
  TraceID : String
deriving DecidableEq, Repr

/-- Modelled from the spec: a scope carrying a propagation context. -/
structure Scope where
  propagationContext : PropagationContext
deriving DecidableEq, Repr

/-- One guarded Go map update `if cond { m[k] = v }`, as each populating
statement of the DSC constructors performs. -/
def condInsert (m : List (String × String)) (k v : String) (cond : Bool) :
    List (String × String) :=
  if cond then mapInsert m k v else m

/-- `DynamicSamplingContextFromTransaction` from the source.  The hub lookup
`hubFromContext(span.Context())` is modelled by passing the hub's client and
scope directly (each absent when the Go pointer is nil); each guarded
`entries[k] = v` statement becomes one `condInsert`, with the source's nested
conditions for `transaction` written as their conjunction. -/
def DynamicSamplingContextFromTransaction (span : Span) (client : Option Client)
    (scope : Option Scope) : DynamicSamplingContext :=
  match client, scope with
  | some client, some _ =>
    let entries : List (String × String) := []
    let entries := condInsert entries "trace_id" span.TraceID (span.TraceID != "")
    let entries :=
      condInsert entries "sample_rate" (strconvFormatFloat span.sampleRate)
        (!span.sampleRate.isZero)
    let entries :=
      match client.dsn with
      | some dsn =>
        condInsert entries "public_key" dsn.publicKey (dsn.publicKey != "")
      | none => entries
    let entries :=
      condInsert entries "release" client.options.Release
        (client.options.Release != "")
    let entries :=
      condInsert entries "environment" client.options.Environment
        (client.options.Environment != "")
    let entries :=
      condInsert entries "transaction" span.Name
        (span.Source != "" && span.Source != SourceURL && span.IsTransaction)
    let entries := mapInsert entries "sampled" (strconvFormatBool span.Sampled)
    ⟨entries, true⟩
  | _, _ => ⟨[], false⟩

/-- `HasEntries` from the source: `len(d.Entries) > 0`. -/
def DynamicSamplingContext.HasEntries (d : DynamicSamplingContext) : Bool :=
  !d.Entries.isEmpty

/-- `IsFrozen` from the source. -/
def DynamicSamplingContext.IsFrozen (d : DynamicSamplingContext) : Bool :=
  d.Frozen

/-- The member-building loop of `DynamicSamplingContext.String`: re-prefix each
entry key with the namespace and keep the members `NewMember` accepts, skipping
the ones it rejects. -/
def dscMembers (entries : List (String × String)) : List baggage.Member :=
  entries.filterMap
    (fun p => baggage.NewMember (sentryNamespace ++ p.1).data p.2.data)

/-- `DynamicSamplingContext.String` from the source: build members (skipping
per-member encode failures), return the serialized document when there is at
least one member and document construction succeeds, the empty string
otherwise.  It never fails. -/
def DynamicSamplingContext.String (d : DynamicSamplingContext) : String :=
  let members := dscMembers d.Entries
  if members.isEmpty then ""
  else
    match baggage.New members with
    | none => ""
    | some bag => String.mk (baggage.serializeMembers bag.members)

/-- `DynamicSamplingContextFromScope` from the source, with each guarded
`entries[k] = v` statement written as one `condInsert`. -/
def DynamicSamplingContextFromScope (scope : Option Scope)
    (client : Option Client) : DynamicSamplingContext :=
  match client, scope with
  | some client, some scope =>
    let entries : List (String × String) := []
    let entries :=
      condInsert entries "trace_id" scope.propagationContext.TraceID
        (scope.propagationContext.TraceID != "")
    let entries :=
      condInsert entries "sample_rate"
        (strconvFormatFloat client.options.TracesSampleRate)
        (!client.options.TracesSampleRate.isZero)
    let entries :=
      match client.dsn with
      | some dsn =>
        condInsert entries "public_key" dsn.publicKey (dsn.publicKey != "")
      | none => entries
    let entries :=
      condInsert entries "release" client.options.Release
        (client.options.Release != "")
    let entries :=
      condInsert entries "environment" client.options.Environment
        (client.options.Environment != "")
    ⟨entries, true⟩
  | _, _ => ⟨[], false⟩

/-! ## Continuation middleware (`otel/mittleware.go`) -/

/-- The fields of an external (otel) span the middleware reads: its span
identifier and its `IsRecording()` state. -/
structure OtelSpan where
  SpanID : String
  recording : Bool
deriving DecidableEq, Repr

/-- A local (sentry) span reference; opaque to the middleware. -/
structure SentrySpan where
  id : Nat
deriving DecidableEq, Repr

/-- The request context as the middleware sees it: a possibly-absent external
span (`trace.SpanFromContext`, `none` modelling the nil/no-span case, in which
`IsRecording` would be false anyway) and a possibly-absent active local span. -/
structure RequestContext where
  otelSpan : Option OtelSpan
  sentrySpan : Option SentrySpan
deriving DecidableEq, Repr

/-- Modelled from the spec: `sentry.SpanToContext` makes the given local span
the context's active local-tracer span. -/
def SpanToContext (ctx : RequestContext) (t : SentrySpan) : RequestContext :=
  { ctx with sentrySpan := some t }

/-- Modelled from the spec: the registry's `Get` (`sentrySpanMap.Get`), an
associative lookup from external span identifier to local span. -/
def spanMapGet (reg : List (String × SentrySpan)) (k : String) :
    Option SentrySpan :=
  mapLookup reg k

/-- `ContinueFromOtel` from the source: when the request context carries an
external span that is recording and the registry maps its identifier to a
local span, run the downstream handler on the context with that local span
active; in every other case run the handler on the context unchanged. -/
def ContinueFromOtel {α : Type} (reg : List (String × SentrySpan))
    (next : RequestContext → α) : RequestContext → α :=
  fun ctx =>
    match ctx.otelSpan with
    | some otelTrace =>
      if otelTrace.recording then
        match spanMapGet reg otelTrace.SpanID with
        | some transaction => next (SpanToContext ctx transaction)
        | none => next ctx
      else next ctx
    | none => next ctx

/-- The value of the last member of a sequence whose key is the namespaced
form of `k` — the reading of last-wins duplicate resolution stated by the
claim, written from its words for comparison with the code's map-building
loop. -/
def lastSentryValue (k : String) : List baggage.Member → Option String
  | [] => none
  | m :: rest =>
    match lastSentryValue k rest with
    | some v => some v
    | none =>
      if m.key = (sentryNamespace ++ k).data then some (String.mk m.value)
      else none

/-- The member a DSC entry produces on serialization when its namespaced key
is valid: key re-prefixed with `sentry-`, value as is, no properties. -/
def toMember (p : String × String) : baggage.Member :=
  ⟨(sentryNamespace ++ p.1).data, p.2.data, []⟩

/-! ## Map lemmas -/

theorem mapLookup_mapInsert {β : Type} (m : List (String × β)) (k k2 : String)
    (v : β) :
    mapLookup (mapInsert m k v) k2 = if k2 = k then some v else mapLookup m k2 := by
  induction m with
  | nil =>
    by_cases h : k2 = k
    · subst h; simp [mapInsert, mapLookup]
    · simp [mapInsert, mapLookup, h, Ne.symm h]
  | cons p rest ih =>
    by_cases hp : p.1 = k
    · simp only [mapInsert, if_pos hp, mapLookup]
      by_cases h : k2 = k
      · simp [h]
      · have h2 : ¬p.1 = k2 := fun hh => h (by rw [← hh, hp])
        simp [h, Ne.symm h, hp, h2]
    · simp only [mapInsert, if_neg hp, mapLookup, ih]
      by_cases h1 : p.1 = k2
      · have h2 : ¬k2 = k := fun hh => hp (by rw [h1, hh])
        simp [h1, h2]
      · simp [h1]

theorem mapInsert_ne_nil {β : Type} (m : List (String × β)) (k : String)
    (v : β) : mapInsert m k v ≠ [] := by
  cases m with
  | nil => simp [mapInsert]
  | cons p rest =>
    by_cases h : p.1 = k <;> simp [mapInsert, h]

theorem mem_mapInsert {β : Type} {m : List (String × β)} {k a : String}
    {v b : β} (h : (a, b) ∈ mapInsert m k v) :
    (a, b) ∈ m ∨ (a = k ∧ b = v) := by
  induction m with
  | nil => simp [mapInsert] at h; tauto
  | cons p rest ih =>
    by_cases hp : p.1 = k <;> simp [mapInsert, hp] at h
    · rcases h with h | h
      · exact Or.inr ⟨h.1, h.2⟩
      · exact Or.inl (List.mem_cons_of_mem _ h)
    · rcases h with h | h
      · exact Or.inl (by simp [h])
      · rcases ih h with h2 | h2
        · exact Or.inl (List.mem_cons_of_mem _ h2)
        · exact Or.inr h2

theorem mapInsert_of_not_mem {β : Type} {m : List (String × β)} {k : String}
    (v : β) (h : ∀ p ∈ m, p.1 ≠ k) : mapInsert m k v = m ++ [(k, v)] := by
  induction m with
  | nil => rfl
  | cons p rest ih =>
    simp only [mapInsert, if_neg (h p (List.mem_cons_self ..)), List.cons_append]
    rw [ih fun q hq => h q (List.mem_cons_of_mem _ hq)]

theorem mapLookup_eq_none {β : Type} {m : List (String × β)} {k : String}
    (h : ∀ p ∈ m, p.1 ≠ k) : mapLookup m k = none := by
  induction m with
  | nil => rfl
  | cons p rest ih =>
    simp only [mapLookup, if_neg (h p (List.mem_cons_self ..))]
    exact ih fun q hq => h q (List.mem_cons_of_mem _ hq)

theorem drop_ns_append (k : String) :
    ((sentryNamespace ++ k).data).drop sentryNamespace.length = k.data := by
  rw [String.data_append]
  exact List.drop_left _ _

/-! ## Lemmas on the member loop of `DynamicSamplingContextFromHeader` -/

theorem buildEntries_ne_nil (acc : List (String × String))
    (ms : List baggage.Member) (h : acc ≠ []) : buildEntries acc ms ≠ [] := by
  induction ms generalizing acc with
  | nil => exact h
  | cons m rest ih =>
    by_cases hp : sentryNamespace.data.isPrefixOf m.key <;>
      simp [buildEntries, hp]
    · exact ih _ (mapInsert_ne_nil _ _ _)
    · exact ih _ h

theorem buildEntries_eq_nil_iff (acc : List (String × String))
    (ms : List baggage.Member) :
    buildEntries acc ms = [] ↔
      acc = [] ∧ ∀ m ∈ ms, sentryNamespace.data.isPrefixOf m.key = false := by
  induction ms generalizing acc with
  | nil => simp [buildEntries]
  | cons m rest ih =>
    by_cases hp : sentryNamespace.data.isPrefixOf m.key
    · simp only [buildEntries, if_pos hp]
      constructor
      · intro h
        exact absurd h (buildEntries_ne_nil _ _ (mapInsert_ne_nil _ _ _))
      · rintro ⟨-, hall⟩
        rw [hall m (List.mem_cons_self ..)] at hp
        exact Bool.noConfusion hp
    · simp only [buildEntries, if_neg hp]
      rw [ih]
      constructor
      · rintro ⟨h1, h2⟩
        refine ⟨h1, fun m2 hm2 => ?_⟩
        rcases List.mem_cons.mp hm2 with rfl | hm2
        · exact Bool.eq_false_iff.mpr hp
        · exact h2 m2 hm2
      · rintro ⟨h1, h2⟩
        exact ⟨h1, fun m2 hm2 => h2 m2 (List.mem_cons_of_mem _ hm2)⟩

theorem mem_buildEntries {acc : List (String × String)}
    {ms : List baggage.Member} {k v : String}
    (h : (k, v) ∈ buildEntries acc ms) :
    (k, v) ∈ acc ∨
      ∃ m ∈ ms, m.key = (sentryNamespace ++ k).data ∧ m.value = v.data := by
  induction ms generalizing acc with
  | nil => exact Or.inl h
  | cons m rest ih =>
    by_cases hp : sentryNamespace.data.isPrefixOf m.key
    · simp only [buildEntries, hp, if_pos] at h
      rcases ih h with h2 | h2
      · rcases mem_mapInsert h2 with h3 | h3
        · exact Or.inl h3
        · refine Or.inr ⟨m, List.mem_cons_self .., ?_, ?_⟩
          · obtain ⟨t, ht⟩ := List.isPrefixOf_iff_prefix.mp hp
            rw [h3.1, String.data_append, ← ht]
            exact congrArg (sentryNamespace.data ++ ·)
              (List.drop_left sentryNamespace.data t).symm
          · rw [h3.2]
      · obtain ⟨m2, hm2, hk⟩ := h2
        exact Or.inr ⟨m2, List.mem_cons_of_mem _ hm2, hk⟩
    · simp only [buildEntries, hp] at h
      rcases ih h with h2 | h2
      · exact Or.inl h2
      · obtain ⟨m2, hm2, hk⟩ := h2
        exact Or.inr ⟨m2, List.mem_cons_of_mem _ hm2, hk⟩

theorem mapLookup_mem {β : Type} {m : List (String × β)} {k : String} {v : β}
    (h : mapLookup m k = some v) : (k, v) ∈ m := by
  induction m with
  | nil => simp [mapLookup] at h
  | cons p rest ih =>
    rw [mapLookup] at h
    by_cases hp : p.1 = k
    · rw [if_pos hp] at h
      injection h with h2
      subst h2
      simp [← hp]
    · rw [if_neg hp] at h
      exact List.mem_cons_of_mem _ (ih h)

theorem mapLookup_buildEntries (acc : List (String × String))
    (ms : List baggage.Member) (k : String) :
    mapLookup (buildEntries acc ms) k =
      match lastSentryValue k ms with
      | some v => some v
      | none => mapLookup acc k := by
  induction ms generalizing acc with
  | nil => rfl
  | cons m rest ih =>
    cases hlast : lastSentryValue k rest with
    | some v =>
      have hl2 : lastSentryValue k (m :: rest) = some v := by
        rw [lastSentryValue, hlast]
      rw [hl2]
      by_cases hp : sentryNamespace.data.isPrefixOf m.key
      · rw [buildEntries, if_pos hp, ih, hlast]
      · rw [buildEntries, if_neg hp, ih, hlast]
    | none =>
      by_cases hk : m.key = (sentryNamespace ++ k).data
      · have hp : sentryNamespace.data.isPrefixOf m.key = true := by
          rw [hk, String.data_append]
          exact List.isPrefixOf_iff_prefix.mpr ⟨k.data, rfl⟩
        have hl2 : lastSentryValue k (m :: rest) = some (String.mk m.value) := by
          rw [lastSentryValue, hlast]
          exact if_pos hk
        have hstrip : String.mk (m.key.drop sentryNamespace.length) = k := by
          rw [hk, drop_ns_append]
        rw [hl2, buildEntries, if_pos hp, ih, hlast, hstrip,
          mapLookup_mapInsert, if_pos rfl]
      · have hl2 : lastSentryValue k (m :: rest) = none := by
          rw [lastSentryValue, hlast]
          exact if_neg hk
        rw [hl2]
        by_cases hp : sentryNamespace.data.isPrefixOf m.key
        · have hstrip : String.mk (m.key.drop sentryNamespace.length) ≠ k := by
            intro he
            apply hk
            obtain ⟨t, ht⟩ := List.isPrefixOf_iff_prefix.mp hp
            rw [← ht] at he ⊢
            have h5 : List.drop sentryNamespace.length
                (sentryNamespace.data ++ t) = k.data := congrArg String.data he
            have ht2 : t = k.data := by
              rw [← h5]
              exact (List.drop_left sentryNamespace.data t).symm
            rw [ht2, String.data_append]
          rw [buildEntries, if_pos hp, ih, hlast, mapLookup_mapInsert,
            if_neg fun hh => hstrip hh.symm]
        · rw [buildEntries, if_neg hp, ih, hlast]

/-! ## Character-class lemmas for the wire grammar -/

theorem tokenChar_props {c : Char} (h : baggage.isTokenChar c = true) :
    c ≠ ',' ∧ c ≠ ';' ∧ c ≠ '=' ∧ c ≠ '%' ∧ isWsChar c = false := by
  refine ⟨fun he => ?_, fun he => ?_, fun he => ?_, fun he => ?_, ?_⟩
  · subst he; exact absurd h (by decide)
  · subst he; exact absurd h (by decide)
  · subst he; exact absurd h (by decide)
  · subst he; exact absurd h (by decide)
  · cases hw : isWsChar c
    · rfl
    · exfalso
      simp only [isWsChar, Bool.or_eq_true, decide_eq_true_eq] at hw
      rcases hw with rfl | rfl <;> exact absurd h (by decide)

theorem isSafeValueChar_spec {c : Char} (h : isSafeValueChar c = true) :
    33 ≤ c.toNat ∧ c.toNat ≤ 126 ∧
      c ≠ '%' ∧ c ≠ ',' ∧ c ≠ ';' ∧ c ≠ '=' := by
  simp only [isSafeValueChar, Bool.and_eq_true, Bool.not_eq_true',
    Bool.or_eq_false_iff, decide_eq_true_eq, decide_eq_false_iff_not] at h
  obtain ⟨⟨ha, hb⟩, ⟨⟨⟨⟨hc, hd⟩, he2⟩, hf⟩, -⟩, -⟩ := h
  exact ⟨ha, hb, hc, hd, he2, hf⟩

theorem hexDigit_props (m : Nat) (h : m < 16) :
    hexDigit m ≠ ',' ∧ hexDigit m ≠ ';' ∧ hexDigit m ≠ '=' ∧
      isWsChar (hexDigit m) = false := by
  interval_cases m <;> decide

theorem hexVal_hexDigit (m : Nat) (h : m < 16) : hexVal (hexDigit m) = some m := by
  interval_cases m <;> decide

/-- No character of an encoded value is a delimiter or whitespace. -/
theorem encodeChar_props (c : Char) :
    ∀ c2 ∈ percentEncodeChar c,
      c2 ≠ ',' ∧ c2 ≠ ';' ∧ c2 ≠ '=' ∧ isWsChar c2 = false := by
  intro c2 hc2
  rw [percentEncodeChar] at hc2
  by_cases hs : isSafeValueChar c = true
  · rw [if_pos hs] at hc2
    rcases List.mem_singleton.mp hc2 with rfl
    obtain ⟨h33, -, -, hcm, hsc, heq⟩ := isSafeValueChar_spec hs
    refine ⟨hcm, hsc, heq, ?_⟩
    have hsp : c2 ≠ ' ' := fun he => by subst he; exact absurd h33 (by decide)
    have htb : c2 ≠ '\t' := fun he => by subst he; exact absurd h33 (by decide)
    simp [isWsChar, hsp, htb]
  · rw [if_neg hs] at hc2
    by_cases hn : c.toNat < 256
    · rw [if_pos hn] at hc2
      rcases List.mem_cons.mp hc2 with rfl | hc3
      · decide
      · rw [hexByte] at hc3
        rcases List.mem_cons.mp hc3 with rfl | hc4
        · exact hexDigit_props _ (by omega)
        · rcases List.mem_singleton.mp hc4 with rfl
          exact hexDigit_props _ (by omega)
    · rw [if_neg hn] at hc2
      rcases List.mem_singleton.mp hc2 with rfl
      have hbig : ∀ d : Char, d.toNat < 256 → c2 ≠ d := fun d hd he =>
        hn (he ▸ hd)
      refine ⟨hbig _ (by decide), hbig _ (by decide), hbig _ (by decide), ?_⟩
      simp [isWsChar, hbig ' ' (by decide), hbig '\t' (by decide)]

/-! ## Percent-decoding inverts percent-encoding -/

theorem percentDecodeList_cons_ne {c : Char} (rest : List Char) (h : c ≠ '%') :
    percentDecodeList (c :: rest) =
      (percentDecodeList rest).map (fun l => c :: l) := by
  cases rest with
  | nil => simp [percentDecodeList, h]
  | cons a rest2 =>
    cases rest2 with
    | nil => simp [percentDecodeList, h]
    | cons b rest3 => simp [percentDecodeList, h]

theorem percentDecodeList_esc (a b : Char) (rest2 : List Char) {ha hb : Nat}
    (h1 : hexVal a = some ha) (h2 : hexVal b = some hb) :
    percentDecodeList ('%' :: a :: b :: rest2) =
      (percentDecodeList rest2).map (fun l => Char.ofNat (16 * ha + hb) :: l) := by
  simp [percentDecodeList, h1, h2]

theorem percentDecodeList_append_encodeChar (c : Char) (t : List Char) :
    percentDecodeList (percentEncodeChar c ++ t) =
      (percentDecodeList t).map (fun l => c :: l) := by
  rw [percentEncodeChar]
  by_cases hs : isSafeValueChar c = true
  · rw [if_pos hs]
    show percentDecodeList (c :: t) = _
    rw [percentDecodeList_cons_ne t (isSafeValueChar_spec hs).2.2.1]
  · rw [if_neg hs]
    by_cases hn : c.toNat < 256
    · rw [if_pos hn, hexByte]
      show percentDecodeList
        ('%' :: hexDigit (c.toNat / 16 % 16) :: hexDigit (c.toNat % 16) :: t) = _
      rw [percentDecodeList_esc _ _ _
        (hexVal_hexDigit (c.toNat / 16 % 16) (by omega))
        (hexVal_hexDigit (c.toNat % 16) (by omega))]
      have h16 : 16 * (c.toNat / 16 % 16) + c.toNat % 16 = c.toNat := by omega
      rw [h16, Char.ofNat_toNat]
    · rw [if_neg hn]
      show percentDecodeList (c :: t) = _
      have hpc : c ≠ '%' := fun he => hn (he ▸ (by decide))
      rw [percentDecodeList_cons_ne t hpc]

theorem percentDecodeList_encode_append (v t : List Char) :
    percentDecodeList (percentEncodeList v ++ t) =
      (percentDecodeList t).map (fun l => v ++ l) := by
  induction v with
  | nil => simp [percentEncodeList]
  | cons c v ih =>
    have he : percentEncodeList (c :: v) =
        percentEncodeChar c ++ percentEncodeList v := by
      simp [percentEncodeList]
    rw [he, List.append_assoc, percentDecodeList_append_encodeChar, ih,
      Option.map_map]
    rfl

theorem percentDecodeList_encode (v : List Char) :
    percentDecodeList (percentEncodeList v) = some v := by
  have h := percentDecodeList_encode_append v []
  simpa [percentDecodeList] using h

theorem percentDecodeList_no_pct {s : List Char} (h : ∀ c ∈ s, c ≠ '%') :
    percentDecodeList s = some s := by
  induction s with
  | nil => rfl
  | cons c rest ih =>
    rw [percentDecodeList_cons_ne rest (h c (List.mem_cons_self ..)),
      ih fun d hd => h d (List.mem_cons_of_mem _ hd)]
    rfl

/-! ## Splitting and trimming lemmas -/

theorem splitFirst_not_mem {sep : Char} {s : List Char}
    (h : ∀ c ∈ s, c ≠ sep) : splitFirst sep s = (s, none) := by
  induction s with
  | nil => rfl
  | cons c rest ih =>
    rw [splitFirst, if_neg (h c (List.mem_cons_self ..)),
      ih fun d hd => h d (List.mem_cons_of_mem _ hd)]

theorem splitFirst_append {sep : Char} {pre : List Char} (post : List Char)
    (h : ∀ c ∈ pre, c ≠ sep) :
    splitFirst sep (pre ++ sep :: post) = (pre, some post) := by
  induction pre with
  | nil => simp [splitFirst]
  | cons c rest ih =>
    rw [List.cons_append, splitFirst, if_neg (h c (List.mem_cons_self ..)),
      ih fun d hd => h d (List.mem_cons_of_mem _ hd)]

theorem dropWhile_eq_self {p : Char → Bool} {s : List Char}
    (h : ∀ c ∈ s, p c = false) : s.dropWhile p = s := by
  cases s with
  | nil => rfl
  | cons c rest => simp [List.dropWhile_cons, h c (List.mem_cons_self ..)]

theorem trimList_eq_self {s : List Char} (h : ∀ c ∈ s, isWsChar c = false) :
    trimList s = s := by
  rw [trimList, dropWhile_eq_self h,
    dropWhile_eq_self fun c hc => h c (List.mem_reverse.mp hc),
    List.reverse_reverse]

theorem splitListOn_append {sep : Char} {a : List Char} (b : List Char)
    (h : ∀ c ∈ a, c ≠ sep) {s : List Char} {ss : List (List Char)}
    (hb : splitListOn sep b = s :: ss) :
    splitListOn sep (a ++ b) = (a ++ s) :: ss := by
  induction a with
  | nil => simpa using hb
  | cons c rest ih =>
    rw [List.cons_append, splitListOn, if_neg (h c (List.mem_cons_self ..)),
      ih fun d hd => h d (List.mem_cons_of_mem _ hd)]
    rfl

theorem splitListOn_no_sep {sep : Char} {a : List Char}
    (h : ∀ c ∈ a, c ≠ sep) : splitListOn sep a = [a] := by
  have h2 : splitListOn sep (a ++ []) = (a ++ []) :: [] :=
    splitListOn_append [] h rfl
  simpa using h2

theorem splitListOn_ne_nil (sep : Char) (s : List Char) :
    splitListOn sep s ≠ [] := by
  cases s with
  | nil => simp [splitListOn]
  | cons c rest =>
    rw [splitListOn]
    by_cases h : c = sep
    · rw [if_pos h]; simp
    · rw [if_neg h]
      cases splitListOn sep rest <;> simp

/-! ## The member round trip -/

theorem validKey_spec {k : List Char} (h : baggage.validKey k = true) :
    k ≠ [] ∧ ∀ c ∈ k, baggage.isTokenChar c = true := by
  constructor
  · intro he
    rw [he] at h
    exact Bool.noConfusion h
  · intro c hc
    exact List.all_eq_true.mp ((Bool.and_eq_true ..).mp h).2 c hc

/-- No character of a serialized property-free member with a valid key is a
comma or whitespace. -/
theorem serializeMember_eq {m : baggage.Member} (hp : m.properties = []) :
    baggage.Member.serialize m =
      m.key ++ ('=' :: percentEncodeList m.value) := by
  simp [baggage.Member.serialize, hp]

theorem serializeMember_chars {m : baggage.Member}
    (hv : baggage.validKey m.key = true) (hp : m.properties = []) :
    ∀ c ∈ baggage.Member.serialize m, c ≠ ',' ∧ isWsChar c = false := by
  intro c hc
  rw [serializeMember_eq hp] at hc
  rcases List.mem_append.mp hc with hk | hv2
  · have h2 := tokenChar_props ((validKey_spec hv).2 c hk)
    exact ⟨h2.1, h2.2.2.2.2⟩
  · rcases List.mem_cons.mp hv2 with rfl | henc
    · exact ⟨by decide, by decide⟩
    · rw [percentEncodeList] at henc
      rcases List.mem_flatten.mp henc with ⟨l, hl, hcl⟩
      rcases List.mem_map.mp hl with ⟨c0, -, rfl⟩
      have h2 := encodeChar_props c0 c hcl
      exact ⟨h2.1, h2.2.2.2⟩

theorem parseMember_serialize {m : baggage.Member}
    (hv : baggage.validKey m.key = true) (hp : m.properties = []) :
    baggage.parseMember (baggage.Member.serialize m) = some m := by
  have htok := fun c hc => tokenChar_props ((validKey_spec hv).2 c hc)
  have hser : baggage.Member.serialize m =
      m.key ++ ('=' :: percentEncodeList m.value) := serializeMember_eq hp
  have hencp : ∀ c ∈ percentEncodeList m.value,
      c ≠ ',' ∧ c ≠ ';' ∧ c ≠ '=' ∧ isWsChar c = false := by
    intro c hc
    rw [percentEncodeList] at hc
    rcases List.mem_flatten.mp hc with ⟨l, hl, hcl⟩
    rcases List.mem_map.mp hl with ⟨c0, -, rfl⟩
    exact encodeChar_props c0 c hcl
  have hnows : ∀ c ∈ m.key ++ ('=' :: percentEncodeList m.value),
      isWsChar c = false := by
    intro c hc
    rcases List.mem_append.mp hc with hk | hv2
    · exact (htok c hk).2.2.2.2
    · rcases List.mem_cons.mp hv2 with rfl | henc
      · decide
      · exact (hencp c henc).2.2.2
  have hnosemi : ∀ c ∈ m.key ++ ('=' :: percentEncodeList m.value),
      c ≠ ';' := by
    intro c hc
    rcases List.mem_append.mp hc with hk | hv2
    · exact (htok c hk).2.1
    · rcases List.mem_cons.mp hv2 with rfl | henc
      · decide
      · exact (hencp c henc).2.1
  have h1 : trimList (m.key ++ ('=' :: percentEncodeList m.value)) =
      m.key ++ ('=' :: percentEncodeList m.value) := trimList_eq_self hnows
  have h2 : splitFirst ';' (m.key ++ ('=' :: percentEncodeList m.value)) =
      (m.key ++ ('=' :: percentEncodeList m.value), none) :=
    splitFirst_not_mem hnosemi
  have h3 : splitFirst '=' (m.key ++ ('=' :: percentEncodeList m.value)) =
      (m.key, some (percentEncodeList m.value)) :=
    splitFirst_append _ fun c hc => (htok c hc).2.2.1
  have h4 : percentDecodeList m.key = some m.key :=
    percentDecodeList_no_pct fun c hc => (htok c hc).2.2.2.1
  have h5 : percentDecodeList (percentEncodeList m.value) = some m.value :=
    percentDecodeList_encode m.value
  have h6 : m.key.isEmpty = false := by
    cases hkk : m.key with
    | nil => exact absurd hkk (validKey_spec hv).1
    | cons a l => rfl
  rw [hser]
  simp only [baggage.parseMember, h1, h2, h3, h4, h5, h6]
  have h7 : (⟨m.key, m.value, []⟩ : baggage.Member) = m := by rw [← hp]
  rw [h7, if_neg fun h0 => Bool.noConfusion h0]

theorem parseMember_cons_ws {c : Char} (s : List Char) (h : isWsChar c = true) :
    baggage.parseMember (c :: s) = baggage.parseMember s := by
  have ht : trimList (c :: s) = trimList s := by
    rw [trimList, trimList, List.dropWhile_cons, h]
    rfl
  simp only [baggage.parseMember, ht]

/-! ## The document round trip -/

theorem parseSegs_serializeMembers (ms : List baggage.Member) (hne : ms ≠ [])
    (hv : ∀ m ∈ ms, baggage.validKey m.key = true ∧ m.properties = []) :
    baggage.parseSegs (splitListOn ',' (baggage.serializeMembers ms)) =
      some ms := by
  induction ms with
  | nil => exact absurd rfl hne
  | cons m rest ih =>
    have hvm := hv m (List.mem_cons_self ..)
    have hchars := serializeMember_chars hvm.1 hvm.2
    cases rest with
    | nil =>
      rw [show baggage.serializeMembers [m] = m.serialize from rfl,
        splitListOn_no_sep fun c hc => (hchars c hc).1]
      simp [baggage.parseSegs, parseMember_serialize hvm.1 hvm.2]
    | cons m2 rest2 =>
      rw [show baggage.serializeMembers (m :: m2 :: rest2) =
        m.serialize ++ (',' :: ' ' :: baggage.serializeMembers (m2 :: rest2))
        from rfl]
      obtain ⟨s, ss, hsplit⟩ : ∃ s ss,
          splitListOn ',' (baggage.serializeMembers (m2 :: rest2)) = s :: ss := by
        cases h : splitListOn ',' (baggage.serializeMembers (m2 :: rest2)) with
        | nil => exact absurd h (splitListOn_ne_nil _ _)
        | cons s ss => exact ⟨s, ss, rfl⟩
      have hsp2 : splitListOn ','
          (' ' :: baggage.serializeMembers (m2 :: rest2)) = (' ' :: s) :: ss := by
        rw [splitListOn, if_neg (by decide), hsplit]
      have hspb : splitListOn ','
          (',' :: ' ' :: baggage.serializeMembers (m2 :: rest2)) =
          [] :: (' ' :: s) :: ss := by
        rw [splitListOn, if_pos rfl, hsp2]
      have hsp3 := splitListOn_append
        (',' :: ' ' :: baggage.serializeMembers (m2 :: rest2))
        (fun c hc => (hchars c hc).1) hspb
      rw [List.append_nil] at hsp3
      rw [hsp3, baggage.parseSegs, parseMember_serialize hvm.1 hvm.2]
      have hp2 : baggage.parseSegs ((' ' :: s) :: ss) = some (m2 :: rest2) := by
        have ihr := ih (by simp) fun m3 hm3 => hv m3 (List.mem_cons_of_mem _ hm3)
        rw [hsplit, baggage.parseSegs] at ihr
        rw [baggage.parseSegs, parseMember_cons_ws s (by decide)]
        exact ihr
      rw [hp2]

theorem parse_serializeMembers (ms : List baggage.Member) (hne : ms ≠ [])
    (hv : ∀ m ∈ ms, baggage.validKey m.key = true ∧ m.properties = []) :
    baggage.Parse (baggage.serializeMembers ms) = some ⟨ms⟩ := by
  rw [baggage.Parse, parseSegs_serializeMembers ms hne hv]
  rfl

theorem filterMap_eq_map_of_eq_some {α β : Type} {f : α → Option β}
    {g : α → β} {l : List α} (h : ∀ x ∈ l, f x = some (g x)) :
    l.filterMap f = l.map g := by
  induction l with
  | nil => rfl
  | cons x rest ih =>
    rw [List.filterMap_cons, h x (List.mem_cons_self ..), List.map_cons,
      ih fun y hy => h y (List.mem_cons_of_mem _ hy)]

theorem dscMembers_eq_map {es : List (String × String)}
    (h : ∀ p ∈ es, baggage.validKey ((sentryNamespace ++ p.1).data) = true) :
    dscMembers es = es.map toMember := by
  refine filterMap_eq_map_of_eq_some fun p hp => ?_
  rw [baggage.NewMember, if_pos (h p hp)]
  rfl

/-- Rebuilding the entry map from the members a valid entry list serializes to
recovers exactly that entry list. -/
theorem buildEntries_toMember (es : List (String × String))
    (acc : List (String × String)) (hnodup : (es.map Prod.fst).Nodup)
    (hdisj : ∀ p ∈ acc, p.1 ∉ es.map Prod.fst) :
    buildEntries acc (es.map toMember) = acc ++ es := by
  induction es generalizing acc with
  | nil => simp [buildEntries]
  | cons kv rest ih =>
    obtain ⟨k, v⟩ := kv
    rw [List.map_cons, buildEntries]
    have hpre : sentryNamespace.data.isPrefixOf (toMember (k, v)).key = true := by
      show sentryNamespace.data.isPrefixOf ((sentryNamespace ++ k).data) = true
      rw [String.data_append]
      exact List.isPrefixOf_iff_prefix.mpr ⟨k.data, rfl⟩
    rw [if_pos hpre]
    have hstrip : String.mk ((toMember (k, v)).key.drop sentryNamespace.length)
        = k := by
      show String.mk
        (((sentryNamespace ++ k).data).drop sentryNamespace.length) = k
      rw [drop_ns_append]
    have hval : String.mk (toMember (k, v)).value = v := rfl
    rw [hstrip, hval]
    simp only [List.map_cons, List.nodup_cons] at hnodup
    rw [mapInsert_of_not_mem v fun p hp he =>
      hdisj p hp (by rw [he]; simp)]
    rw [ih (acc ++ [(k, v)]) hnodup.2 ?_, List.append_assoc]
    · rfl
    · intro p hp
      rcases List.mem_append.mp hp with hpa | hpk
      · intro hmem
        exact hdisj p hpa (by simp only [List.map_cons]
                              exact List.mem_cons_of_mem _ hmem)
      · rcases List.mem_singleton.mp hpk with rfl
        exact hnodup.1

/-! ## Lookup characterizations for `DynamicSamplingContextFromTransaction` -/

theorem mapLookup_condInsert_ne {m : List (String × String)} {k k2 v : String}
    {c : Bool} (h : k2 ≠ k) :
    mapLookup (condInsert m k v c) k2 = mapLookup m k2 := by
  cases c with
  | true => simp only [condInsert, if_pos]; rw [mapLookup_mapInsert, if_neg h]
  | false => rfl

theorem mapLookup_condInsert_self {m : List (String × String)} {k v : String}
    {c : Bool} :
    mapLookup (condInsert m k v c) k = if c then some v else mapLookup m k := by
  cases c with
  | true => simp only [condInsert, if_pos]; rw [mapLookup_mapInsert, if_pos rfl]
  | false => rfl

theorem lookup_sampled_fromTransaction (span : Span) (client : Client)
    (scope : Scope) :
    mapLookup
      (DynamicSamplingContextFromTransaction span (some client)
        (some scope)).Entries "sampled" =
      some (strconvFormatBool span.Sampled) := by
  show mapLookup (mapInsert _ "sampled" _) "sampled" = _
  rw [mapLookup_mapInsert, if_pos rfl]

theorem lookup_transaction_fromTransaction (span : Span) (client : Client)
    (scope : Scope) :
    mapLookup
      (DynamicSamplingContextFromTransaction span (some client)
        (some scope)).Entries "transaction" =
      if span.Source != "" && span.Source != SourceURL && span.IsTransaction
      then some span.Name else none := by
  show mapLookup (mapInsert _ "sampled" _) "transaction" = _
  rw [mapLookup_mapInsert, if_neg (by decide),
    mapLookup_condInsert_self]
  cases hdsn : client.dsn <;>
    simp [mapLookup_condInsert_ne, mapLookup]

theorem lookup_sample_rate_fromTransaction (span : Span) (client : Client)
    (scope : Scope) :
    mapLookup
      (DynamicSamplingContextFromTransaction span (some client)
        (some scope)).Entries "sample_rate" =
      if span.sampleRate.isZero then none
      else some (strconvFormatFloat span.sampleRate) := by
  show mapLookup (mapInsert _ "sampled" _) "sample_rate" = _
  rw [mapLookup_mapInsert, if_neg (by decide),
    mapLookup_condInsert_ne (by decide)]
  cases hdsn : client.dsn <;>
    simp [mapLookup_condInsert_ne, mapLookup_condInsert_self, mapLookup] <;>
    cases span.sampleRate.isZero <;> simp

/-! ## Claim theorems -/

/-- **C2** (freeze-on-receipt): for every header that parses successfully, the
DSC is frozen exactly when the header contains at least one member whose key
starts with `sentry-`; with zero such members it is unfrozen even if the
header is non-empty. -/
theorem fromHeader_freeze_on_receipt (header : String)
    (d : DynamicSamplingContext)
    (h : DynamicSamplingContextFromHeader header = some d) :
    ∃ bag, baggage.Parse header.data = some bag ∧
      (d.Frozen = true ↔
        ∃ m ∈ bag.Members, sentryNamespace.data.isPrefixOf m.key = true) := by
  rw [DynamicSamplingContextFromHeader] at h
  cases hparse : baggage.Parse header.data with
  | none => rw [hparse] at h; exact Option.noConfusion h
  | some bag =>
    simp only [hparse, Option.some.injEq] at h
    subst h
    refine ⟨bag, rfl, ?_⟩
    show (!(buildEntries [] bag.Members).isEmpty) = true ↔ _
    constructor
    · intro hfroz
      by_contra hex
      push_neg at hex
      have hnil : buildEntries [] bag.Members = [] :=
        (buildEntries_eq_nil_iff [] bag.Members).mpr
          ⟨rfl, fun m hm => Bool.eq_false_iff.mpr (hex m hm)⟩
      rw [hnil] at hfroz
      exact Bool.noConfusion hfroz
    · rintro ⟨m, hm, hpre⟩
      have hne : buildEntries [] bag.Members ≠ [] := by
        intro hnil
        have h2 := ((buildEntries_eq_nil_iff [] bag.Members).mp hnil).2 m hm
        rw [hpre] at h2
        exact Bool.noConfusion h2
      cases hb : buildEntries [] bag.Members with
      | nil => exact absurd hb hne
      | cons x xs => rfl

/-- Witness for C2 at a concrete header with one foreign and one `sentry-`
member. -/
theorem fromHeader_freeze_on_receipt_witness :
    ∃ bag, baggage.Parse ("other=1, sentry-a=1" : String).data = some bag ∧
      ((⟨[("a", "1")], true⟩ : DynamicSamplingContext).Frozen = true ↔
        ∃ m ∈ bag.Members, sentryNamespace.data.isPrefixOf m.key = true) :=
  fromHeader_freeze_on_receipt "other=1, sentry-a=1" ⟨[("a", "1")], true⟩
    (by decide)

/-- **C4** (namespace filtering): every entry of a DSC parsed from a header
comes from a member whose key is exactly `sentry-` followed by the stored key
— non-namespaced members are never stored, and the stored key has the
namespace stripped. -/
theorem fromHeader_namespace_filtering (header : String)
    (d : DynamicSamplingContext) (k v : String)
    (h : DynamicSamplingContextFromHeader header = some d)
    (hl : mapLookup d.Entries k = some v) :
    ∃ bag, baggage.Parse header.data = some bag ∧
      ∃ m ∈ bag.Members, m.key = (sentryNamespace ++ k).data ∧
        m.value = v.data := by
  rw [DynamicSamplingContextFromHeader] at h
  cases hparse : baggage.Parse header.data with
  | none => rw [hparse] at h; exact Option.noConfusion h
  | some bag =>
    simp only [hparse, Option.some.injEq] at h
    subst h
    refine ⟨bag, rfl, ?_⟩
    rcases mem_buildEntries (mapLookup_mem hl) with h2 | h2
    · exact absurd h2 (List.not_mem_nil _)
    · exact h2

/-- Witness for C4 at a concrete header. -/
theorem fromHeader_namespace_filtering_witness :
    ∃ bag, baggage.Parse ("sentry-a=1" : String).data = some bag ∧
      ∃ m ∈ bag.Members, m.key = (sentryNamespace ++ "a").data ∧
        m.value = ("1" : String).data :=
  fromHeader_namespace_filtering "sentry-a=1" ⟨[("a", "1")], true⟩ "a" "1"
    (by decide) (by decide)

/-- **C10** (last-wins duplicates): when the parsed member sequence holds
several members with the same `sentry-` key, the entry stored under the
stripped key is the value of the last such member. -/
theorem fromHeader_last_wins (header : String) (d : DynamicSamplingContext)
    (bag : baggage.Baggage) (k v : String)
    (h : DynamicSamplingContextFromHeader header = some d)
    (hparse : baggage.Parse header.data = some bag)
    (hlast : lastSentryValue k bag.Members = some v) :
    mapLookup d.Entries k = some v := by
  rw [DynamicSamplingContextFromHeader] at h
  simp only [hparse, Option.some.injEq] at h
  subst h
  show mapLookup (buildEntries [] bag.Members) k = some v
  rw [mapLookup_buildEntries, hlast]

/-- Witness for C10 at a header with a duplicated `sentry-a` member. -/
theorem fromHeader_last_wins_witness :
    mapLookup (⟨[("a", "2")], true⟩ : DynamicSamplingContext).Entries "a" =
      some "2" :=
  fromHeader_last_wins "sentry-a=1, sentry-a=2" ⟨[("a", "2")], true⟩
    ⟨[⟨"sentry-a".data, "1".data, []⟩, ⟨"sentry-a".data, "2".data, []⟩]⟩
    "a" "2" (by decide) (by decide) (by decide)

/-- **C5** (sample-rate formatting): with client and scope present, a zero
resolved sample rate yields no `sample_rate` entry; a non-zero rate yields the
entry with the no-exponent shortest decimal rendering, and rate 0.25 renders
exactly as `"0.25"`. -/
theorem fromTransaction_sample_rate (span : Span) (client : Client)
    (scope : Scope) :
    (span.sampleRate.isZero = true →
      mapLookup (DynamicSamplingContextFromTransaction span (some client)
        (some scope)).Entries "sample_rate" = none) ∧
    (span.sampleRate.isZero = false →
      mapLookup (DynamicSamplingContextFromTransaction span (some client)
        (some scope)).Entries "sample_rate" =
        some (strconvFormatFloat span.sampleRate)) ∧
    strconvFormatFloat ⟨1, 2⟩ = "0.25" := by
  refine ⟨?_, ?_, by decide⟩
  · intro h
    rw [lookup_sample_rate_fromTransaction, if_pos h]
  · intro h
    rw [lookup_sample_rate_fromTransaction, if_neg (by simp [h])]

/-- Witness for C5: rate 1/4 stored as `"0.25"`. -/
theorem fromTransaction_sample_rate_witness :
    mapLookup (DynamicSamplingContextFromTransaction
      ⟨"t", ⟨1, 2⟩, "custom", "n", true, true⟩
      (some ⟨none, ⟨"", "", ⟨0, 0⟩⟩⟩) (some ⟨⟨""⟩⟩)).Entries "sample_rate" =
      some "0.25" := by
  have h := (fromTransaction_sample_rate
    ⟨"t", ⟨1, 2⟩, "custom", "n", true, true⟩
    ⟨none, ⟨"", "", ⟨0, 0⟩⟩⟩ ⟨⟨""⟩⟩).2.1 (by decide)
  rw [h]
  decide

/-- **C6** (URL-derived name suppression): a `transaction` entry appears only
when the span is the transaction span and its source is not URL-derived, and
it equals the span's name; a URL source yields no entry regardless of name. -/
theorem fromTransaction_transaction_suppression (span : Span) (client : Client)
    (scope : Scope) :
    (∀ v, mapLookup (DynamicSamplingContextFromTransaction span (some client)
        (some scope)).Entries "transaction" = some v →
      span.IsTransaction = true ∧ span.Source ≠ SourceURL ∧ v = span.Name) ∧
    (span.Source = SourceURL →
      mapLookup (DynamicSamplingContextFromTransaction span (some client)
        (some scope)).Entries "transaction" = none) := by
  constructor
  · intro v hv
    rw [lookup_transaction_fromTransaction] at hv
    by_cases hc : (span.Source != "" && span.Source != SourceURL &&
        span.IsTransaction) = true
    · rw [if_pos hc] at hv
      injection hv with hv2
      simp only [Bool.and_eq_true, bne_iff_ne] at hc
      exact ⟨hc.2, hc.1.2, hv2.symm⟩
    · rw [if_neg hc] at hv
      exact Option.noConfusion hv
  · intro hurl
    rw [lookup_transaction_fromTransaction, hurl]
    simp

/-- Witness for C6: URL-derived source suppresses the name. -/
theorem fromTransaction_transaction_suppression_witness :
    mapLookup (DynamicSamplingContextFromTransaction
      ⟨"t", ⟨1, 0⟩, "url", "GET /user/123", true, true⟩
      (some ⟨none, ⟨"", "", ⟨0, 0⟩⟩⟩) (some ⟨⟨""⟩⟩)).Entries "transaction" =
      none :=
  (fromTransaction_transaction_suppression
    ⟨"t", ⟨1, 0⟩, "url", "GET /user/123", true, true⟩
    ⟨none, ⟨"", "", ⟨0, 0⟩⟩⟩ ⟨⟨""⟩⟩).2 (by decide)

/-- **C7** (sampled always present): with client and scope present the DSC
always holds a `sampled` entry that is the literal `"true"` or `"false"` of
the span's sampling decision. -/
theorem fromTransaction_sampled_always (span : Span) (client : Client)
    (scope : Scope) :
    mapLookup (DynamicSamplingContextFromTransaction span (some client)
      (some scope)).Entries "sampled" =
      some (if span.Sampled then "true" else "false") :=
  lookup_sampled_fromTransaction span client scope

/-- **C8** (empty-input safety): with an absent client or scope, both
`DynamicSamplingContextFromTransaction` and `DynamicSamplingContextFromScope`
return an empty, unfrozen DSC (they are total functions: no error exists). -/
theorem dsc_empty_input_safety (span : Span) (client : Option Client)
    (scope : Option Scope) (h : client = none ∨ scope = none) :
    DynamicSamplingContextFromTransaction span client scope = ⟨[], false⟩ ∧
      DynamicSamplingContextFromScope scope client = ⟨[], false⟩ := by
  rcases h with rfl | rfl
  · cases scope <;> exact ⟨rfl, rfl⟩
  · cases client <;> exact ⟨rfl, rfl⟩

/-- Witness for C8 at a concrete span with an absent client. -/
theorem dsc_empty_input_safety_witness :
    DynamicSamplingContextFromTransaction
        ⟨"", ⟨0, 0⟩, "", "", false, false⟩ none (some ⟨⟨""⟩⟩) =
        ⟨[], false⟩ ∧
      DynamicSamplingContextFromScope (some ⟨⟨""⟩⟩) none = ⟨[], false⟩ :=
  dsc_empty_input_safety ⟨"", ⟨0, 0⟩, "", "", false, false⟩ none
    (some ⟨⟨""⟩⟩) (Or.inl rfl)

/-- Serialization depends on the entries only through the members they
produce. -/
theorem dscString_congr {d1 d2 : DynamicSamplingContext}
    (h : dscMembers d1.Entries = dscMembers d2.Entries) :
    d1.String = d2.String := by
  rw [DynamicSamplingContext.String, DynamicSamplingContext.String, h]

/-- **C9** (serialize never fails): `String` is a total function; an entry
whose member construction fails is skipped while the rest are serialized, and
with zero entries or a failing document construction the result is the empty
string. -/
theorem dsc_string_never_fails (d : DynamicSamplingContext) :
    (d.Entries = [] → d.String = "") ∧
    (∀ pre k v post, d.Entries = pre ++ (k, v) :: post →
      baggage.NewMember (sentryNamespace ++ k).data v.data = none →
      d.String = DynamicSamplingContext.String ⟨pre ++ post, d.Frozen⟩) ∧
    (baggage.New (dscMembers d.Entries) = none → d.String = "") := by
  refine ⟨?_, ?_, ?_⟩
  · intro h
    rw [DynamicSamplingContext.String, h]
    rfl
  · intro pre k v post hsplit hfail
    refine dscString_congr ?_
    rw [hsplit]
    simp only [dscMembers, List.filterMap_append, List.filterMap_cons, hfail]
  · intro h
    show (if (dscMembers d.Entries).isEmpty then ""
      else match baggage.New (dscMembers d.Entries) with
        | none => ""
        | some bag => String.mk (baggage.serializeMembers bag.members)) = ""
    rw [h]
    cases he : (dscMembers d.Entries).isEmpty <;> rfl

/-- Witness for C9: one unencodable entry is skipped, the rest serialize. -/
theorem dsc_string_never_fails_witness :
    DynamicSamplingContext.String ⟨[("bad key", "v"), ("ok", "1")], true⟩ =
      DynamicSamplingContext.String ⟨[("ok", "1")], true⟩ :=
  (dsc_string_never_fails ⟨[("bad key", "v"), ("ok", "1")], true⟩).2.1 []
    "bad key" "v" [("ok", "1")] rfl (by decide)

/-- **C3** (registry substitution): with an active recording external span
whose identifier the registry maps to local span `t`, the middleware runs the
downstream handler on the context with `t` active; with a non-recording
external span, a registry miss, or no external span, the handler runs on the
unmodified context. -/
theorem continueFromOtel_substitution {α : Type}
    (reg : List (String × SentrySpan)) (next : RequestContext → α)
    (ctx : RequestContext) :
    (∀ os t, ctx.otelSpan = some os → os.recording = true →
      spanMapGet reg os.SpanID = some t →
      ContinueFromOtel reg next ctx = next (SpanToContext ctx t)) ∧
    (∀ os, ctx.otelSpan = some os → os.recording = false →
      ContinueFromOtel reg next ctx = next ctx) ∧
    (∀ os, ctx.otelSpan = some os → spanMapGet reg os.SpanID = none →
      ContinueFromOtel reg next ctx = next ctx) ∧
    (ctx.otelSpan = none → ContinueFromOtel reg next ctx = next ctx) := by
  refine ⟨?_, ?_, ?_, ?_⟩
  · intro os t hos hrec hget
    simp [ContinueFromOtel, hos, hrec, hget]
  · intro os hos hrec
    simp [ContinueFromOtel, hos, hrec]
  · intro os hos hget
    cases hrec : os.recording
    · simp [ContinueFromOtel, hos, hrec]
    · simp [ContinueFromOtel, hos, hrec, hget]
  · intro hos
    simp [ContinueFromOtel, hos]

/-- Witness for C3: a registered, recording external span is substituted. -/
theorem continueFromOtel_substitution_witness :
    ContinueFromOtel [("s1", ⟨1⟩)] (fun c => c) ⟨some ⟨"s1", true⟩, none⟩ =
      SpanToContext ⟨some ⟨"s1", true⟩, none⟩ ⟨1⟩ :=
  (continueFromOtel_substitution [("s1", ⟨1⟩)] (fun c => c)
    ⟨some ⟨"s1", true⟩, none⟩).1 ⟨"s1", true⟩ ⟨1⟩ rfl rfl (by decide)

/-- **C1 counterexample**: a DSC with one (non-empty) entry whose namespaced
key cannot be encoded serializes to the empty string, whose parse fails — the
round trip does not succeed for every DSC with non-empty entries. -/
theorem dsc_roundtrip_counterexample :
    (⟨[("a b", "v")], true⟩ : DynamicSamplingContext).Entries ≠ [] ∧
      DynamicSamplingContextFromHeader
        (DynamicSamplingContext.String ⟨[("a b", "v")], true⟩) = none := by
  decide

/-- **C1 amended**: for every DSC with non-empty entries whose keys are unique
and, once prefixed with `sentry-`, are valid baggage keys, and whose
serialized document is within the codec's ceilings, parsing the serialization
succeeds and returns exactly the original entries with `Frozen = true`. -/
theorem dsc_roundtrip (d : DynamicSamplingContext) (hne : d.Entries ≠ [])
    (hnodup : (d.Entries.map Prod.fst).Nodup)
    (hkeys : ∀ p ∈ d.Entries,
      baggage.validKey ((sentryNamespace ++ p.1).data) = true)
    (hcount : d.Entries.length ≤ baggage.maxMembers)
    (hlen : (baggage.serializeMembers (dscMembers d.Entries)).length ≤
      baggage.maxBaggageLength) :
    DynamicSamplingContextFromHeader d.String = some ⟨d.Entries, true⟩ := by
  have hmem : dscMembers d.Entries = d.Entries.map toMember :=
    dscMembers_eq_map hkeys
  have hmems_ne : dscMembers d.Entries ≠ [] := by
    rw [hmem]
    intro h0
    exact hne (List.map_eq_nil_iff.mp h0)
  have hvm : ∀ m ∈ dscMembers d.Entries,
      baggage.validKey m.key = true ∧ m.properties = [] := by
    rw [hmem]
    intro m hm
    rcases List.mem_map.mp hm with ⟨p, hp, rfl⟩
    exact ⟨hkeys p hp, rfl⟩
  have hie : (dscMembers d.Entries).isEmpty = false := by
    cases hms : dscMembers d.Entries with
    | nil => exact absurd hms hmems_ne
    | cons x xs => rfl
  have hnew : baggage.New (dscMembers d.Entries) =
      some ⟨dscMembers d.Entries⟩ := by
    rw [baggage.New,
      if_pos ⟨by rw [hmem, List.length_map]; exact hcount, hlen⟩]
  have hstr : d.String =
      String.mk (baggage.serializeMembers (dscMembers d.Entries)) := by
    show (if (dscMembers d.Entries).isEmpty then ""
      else match baggage.New (dscMembers d.Entries) with
        | none => ""
        | some bag => String.mk (baggage.serializeMembers bag.members)) = _
    rw [hie, if_neg fun h0 => Bool.noConfusion h0, hnew]
  have hparse : baggage.Parse
      (String.mk (baggage.serializeMembers (dscMembers d.Entries))).data =
      some ⟨dscMembers d.Entries⟩ := by
    show baggage.Parse (baggage.serializeMembers (dscMembers d.Entries)) = _
    exact parse_serializeMembers _ hmems_ne hvm
  rw [hstr, DynamicSamplingContextFromHeader]
  simp only [hparse]
  have hbe : buildEntries []
      (baggage.Baggage.Members ⟨dscMembers d.Entries⟩) = d.Entries := by
    show buildEntries [] (dscMembers d.Entries) = d.Entries
    rw [hmem]
    have h2 := buildEntries_toMember d.Entries [] hnodup (by simp)
    simpa using h2
  rw [hbe]
  have hfroz : (!d.Entries.isEmpty) = true := by
    cases he2 : d.Entries with
    | nil => exact absurd he2 hne
    | cons x xs => rfl
  rw [hfroz]

/-- Witness for the amended C1 at a one-entry DSC. -/
theorem dsc_roundtrip_witness :
    DynamicSamplingContextFromHeader
        (DynamicSamplingContext.String ⟨[("a", "1")], true⟩) =
      some ⟨[("a", "1")], true⟩ :=
  dsc_roundtrip ⟨[("a", "1")], true⟩ (by decide) (by decide) (by decide)
    (by decide) (by decide)

example : natToStr 25 = "25" := by decide
example : percentDecodeList (percentEncodeList " a,b".data) = some " a,b".data := by decide
example : splitListOn ',' "a, b,".data = ["a".data, " b".data, []] := by decide
example : trimList "  a b ".data = "a b".data := by decide
example : splitFirst '=' "k=v=w".data = ("k".data, some "v=w".data) := by decide

example :
    DynamicSamplingContextFromHeader "sentry-trace_id=abc, other=1" =
      some ⟨[("trace_id", "abc")], true⟩ := by decide

example : DynamicSamplingContextFromHeader "other=1" = some ⟨[], false⟩ := by
  decide

example : DynamicSamplingContextFromHeader "nokey" = none := by decide

example : strconvFormatFloat ⟨1, 2⟩ = "0.25" := by decide

example : strconvFormatFloat ⟨1, 0⟩ = "1" := by decide

set_option maxRecDepth 100000 in
example :
    (DynamicSamplingContextFromTransaction
      ⟨"4c79", ⟨1, 0⟩, "custom", "GET /", true, true⟩
      (some ⟨some ⟨"abc"⟩, ⟨"1.2.3", "testing", ⟨1, 0⟩⟩⟩) (some ⟨⟨""⟩⟩)).String =
    "sentry-trace_id=4c79, sentry-sample_rate=1, sentry-public_key=abc, sentry-release=1.2.3, sentry-environment=testing, sentry-transaction=GET%20/, sentry-sampled=true" := by
  decide

end SentryGo
